import Mathlib

/-! Verification of the CPU-side core of the ca-finder cellular-automaton explorer
(sources: src/main.js and src/util.js).  The JavaScript code is shallowly embedded:
JavaScript numbers are modelled as exact rationals (all quantities involved are
small integers or simple fractions, far from any double rounding boundary), typed
array contents as natural numbers, and the nondeterministic Math.random oracle as
a stream u : ℕ → ℚ of draws in [0, 1) threaded through each operation with an
explicit counter, so that consecutive calls consume consecutive draws exactly as
the source consumes consecutive Math.random() results. -/

namespace CAF

/-! Configuration constants, from the top of src/main.js. -/

def MAX_WEIGHT : ℚ := 3 / 2

def MIN_N_STATES : ℕ := 2

def MAX_N_STATES : ℕ := 32

def MAX_NEIGHBOR_RANGE : ℕ := 12

def MIN_N_RINGS : ℕ := 1

def MAX_N_RINGS : ℕ := 8

/-- MAX_CELLS_PER_RING = Math.pow(MAX_NEIGHBOR_RANGE * 2 + 1, 2) = 625. -/
def MAX_CELLS_PER_RING : ℕ := (MAX_NEIGHBOR_RANGE * 2 + 1) ^ 2

/-- MAX_N_RULES = Math.floor(MAX_WEIGHT * MAX_CELLS_PER_RING * MAX_N_RINGS + 1) = 7501. -/
def MAX_N_RULES : ℕ := (⌊MAX_WEIGHT * (MAX_CELLS_PER_RING : ℚ) * (MAX_N_RINGS : ℚ) + 1⌋).toNat

theorem MAX_N_RULES_eq : MAX_N_RULES = 7501 := by
  have h : ⌊MAX_WEIGHT * (MAX_CELLS_PER_RING : ℚ) * (MAX_N_RINGS : ℚ) + 1⌋ = 7501 := by
    norm_num [MAX_WEIGHT, MAX_CELLS_PER_RING, MAX_NEIGHBOR_RANGE, MAX_N_RINGS]
  rw [MAX_N_RULES, h]
  rfl

/-! Ring model (generateRings in src/main.js).  The source stores the radii in
Float32Arrays, but every stored value is an integer: with step = neighborRange / nRings,
ring i gets innerRadius = max(1, Math.floor(i * step) + 1) and
outerRadius = max(innerRadius, Math.floor((i + 1) * step)); Math.floor(i * step) is the
integer i * nr / k (natural division), which we use directly.  Entries at index ≥ nRings
are zeroed by the source.  The ring arrays are recomputed (via recalcMinNeighborWeight →
generateRings) on every change of neighborRange or nRings, so they are embedded as pure
functions of the current configuration. -/

def ringInner (nr k i : ℕ) : ℕ :=
  if k = 1 then (if i = 0 then 1 else 0)
  else if i < k then max 1 (i * nr / k + 1) else 0

def ringOuter (nr k i : ℕ) : ℕ :=
  if k = 1 then (if i = 0 then nr else 0)
  else if i < k then max (ringInner nr k i) ((i + 1) * nr / k) else 0

/-- Ring weights alternate +1 (even rings) and -0.5 (odd rings); a single ring gets +1. -/
def ringWeight (k i : ℕ) : ℚ :=
  if k = 1 then (if i = 0 then 1 else 0)
  else if i < k then (if i % 2 = 0 then 1 else -(1 / 2)) else 0

/-! Neighbor enumeration.  countCellsInRing in src/main.js iterates dx, dy over
[-iOuter, iOuter] with iOuter = Math.floor(outerR), skips (0,0), and keeps offsets with
Math.sqrt(dx*dx + dy*dy) in [innerR, outerR]; for the integer radii produced by
generateRings the distance comparison is exactly the squared comparison used below
(sqrt is monotone and both bounds are integers).  Note the source applies no
von Neumann filter here. -/

def ringOffsets (inner outer : ℕ) : Finset (ℤ × ℤ) :=
  (Finset.Icc (-(outer : ℤ)) (outer : ℤ) ×ˢ Finset.Icc (-(outer : ℤ)) (outer : ℤ)).filter
    fun p => ¬(p.1 = 0 ∧ p.2 = 0) ∧ (inner : ℤ) ^ 2 ≤ p.1 ^ 2 + p.2 ^ 2 ∧
      p.1 ^ 2 + p.2 ^ 2 ≤ (outer : ℤ) ^ 2

def countCellsInRing (inner outer : ℕ) : ℕ := (ringOffsets inner outer).card

/-- Neighbor enumeration of the GPU update kernel (fragment shader in createShaders,
src/main.js): dx, dy iterate over [-MAX_NEIGHBOR_RANGE, MAX_NEIGHBOR_RANGE]; offsets with
|dx| > iOuter or |dy| > iOuter are skipped, (0,0) is skipped, the squared distance must lie
in [innerR², outerR²], and with u_vonNeumann set offsets with |dx| + |dy| > iOuter are
skipped as well. -/
def gpuRingOffsets (inner outer : ℕ) (vonNeumann : Bool) : Finset (ℤ × ℤ) :=
  (Finset.Icc (-(MAX_NEIGHBOR_RANGE : ℤ)) (MAX_NEIGHBOR_RANGE : ℤ) ×ˢ
      Finset.Icc (-(MAX_NEIGHBOR_RANGE : ℤ)) (MAX_NEIGHBOR_RANGE : ℤ)).filter
    fun p => (-(outer : ℤ) ≤ p.1 ∧ p.1 ≤ (outer : ℤ)) ∧
      (-(outer : ℤ) ≤ p.2 ∧ p.2 ≤ (outer : ℤ)) ∧
      ¬(p.1 = 0 ∧ p.2 = 0) ∧ (inner : ℤ) ^ 2 ≤ p.1 ^ 2 + p.2 ^ 2 ∧
      p.1 ^ 2 + p.2 ^ 2 ≤ (outer : ℤ) ^ 2 ∧
      (vonNeumann = true → p.1.natAbs + p.2.natAbs ≤ outer)

def gpuCountCellsInRing (inner outer : ℕ) (vonNeumann : Bool) : ℕ :=
  (gpuRingOffsets inner outer vonNeumann).card

theorem gpuRingOffsets_false_eq (inner outer : ℕ) (h : outer ≤ MAX_NEIGHBOR_RANGE) :
    gpuRingOffsets inner outer false = ringOffsets inner outer := by
  have hm : (MAX_NEIGHBOR_RANGE : ℤ) = 12 := by norm_num [MAX_NEIGHBOR_RANGE]
  have h12 : (outer : ℤ) ≤ 12 := by
    have := h
    simp only [MAX_NEIGHBOR_RANGE] at this
    exact_mod_cast this
  ext p
  simp only [gpuRingOffsets, ringOffsets, Finset.mem_filter, Finset.mem_product,
    Finset.mem_Icc, hm]
  constructor
  · rintro ⟨-, ⟨h1, h2⟩, ⟨h3, h4⟩, h5, h6, h7, -⟩
    exact ⟨⟨⟨h1, h2⟩, h3, h4⟩, h5, h6, h7⟩
  · rintro ⟨⟨⟨h1, h2⟩, h3, h4⟩, h5, h6, h7⟩
    refine ⟨⟨⟨?_, ?_⟩, ?_, ?_⟩, ⟨h1, h2⟩, ⟨h3, h4⟩, h5, h6, h7, ?_⟩
    · omega
    · omega
    · omega
    · omega
    · intro hfalse
      simp at hfalse

theorem gpuRingOffsets_true_subset (inner outer : ℕ) :
    gpuRingOffsets inner outer true ⊆ gpuRingOffsets inner outer false := by
  intro p hp
  simp only [gpuRingOffsets, Finset.mem_filter, Finset.mem_product] at hp ⊢
  obtain ⟨hbox, h1, h2, h3, h4, h5, -⟩ := hp
  refine ⟨hbox, h1, h2, h3, h4, h5, ?_⟩
  intro hfalse
  simp at hfalse

/-- C1, amended.  For the Moore neighborhood (vonNeumann = false) the CPU cell count
equals the GPU kernel enumeration whenever the ring fits in the kernel loop bounds
(outerRadius ≤ MAX_NEIGHBOR_RANGE); with vonNeumann set the GPU enumerates a subset, so
the CPU count is only an upper bound — countCellsInRing applies no von Neumann filter. -/
theorem countCellsInRing_amended (inner outer : ℕ) (h : outer ≤ MAX_NEIGHBOR_RANGE) :
    countCellsInRing inner outer = gpuCountCellsInRing inner outer false ∧
    gpuCountCellsInRing inner outer true ≤ countCellsInRing inner outer := by
  constructor
  · rw [countCellsInRing, gpuCountCellsInRing, gpuRingOffsets_false_eq inner outer h]
  · rw [countCellsInRing, gpuCountCellsInRing,
      ← gpuRingOffsets_false_eq inner outer h]
    exact Finset.card_le_card (gpuRingOffsets_true_subset inner outer)

/-- Witness for countCellsInRing_amended at the ring (1, 2). -/
theorem countCellsInRing_amended_witness :
    countCellsInRing 1 2 = gpuCountCellsInRing 1 2 false ∧
    gpuCountCellsInRing 1 2 true ≤ countCellsInRing 1 2 :=
  countCellsInRing_amended 1 2 (by norm_num [MAX_NEIGHBOR_RANGE])

/-- C1, counterexample.  On the ring (innerRadius, outerRadius) = (1, 3) with the
von Neumann flag set, countCellsInRing counts 28 offsets while the GPU kernel enumerates
only 24 (it drops (±2, ±2), whose coordinate sum 4 exceeds iOuter = 3), so the CPU count
does not reproduce the kernel enumeration for every value of the flag. -/
theorem countCellsInRing_counterexample :
    countCellsInRing 1 3 = 28 ∧ gpuCountCellsInRing 1 3 true = 24 := by
  constructor
  · decide
  · decide

/-- C9.  For every neighborRange in [1, 12] and ringCount in [1, 8], every generated ring
satisfies innerRadius ≤ outerRadius, and ring 0 has inner radius 1. -/
theorem generateRings_radii_ok (nr k : ℕ) (hnr1 : 1 ≤ nr) (hnr2 : nr ≤ 12)
    (hk1 : 1 ≤ k) (hk2 : k ≤ 8) :
    (∀ i < k, ringInner nr k i ≤ ringOuter nr k i) ∧ ringInner nr k 0 = 1 := by
  constructor
  · intro i hi
    rcases eq_or_ne k 1 with h1 | h1
    · subst h1
      have hi0 : i = 0 := by omega
      subst hi0
      simpa [ringInner, ringOuter] using hnr1
    · simp only [ringInner, ringOuter, if_neg h1, if_pos hi]
      exact le_max_left _ _
  · rcases eq_or_ne k 1 with h1 | h1
    · simp [ringInner, h1]
    · have h0 : 0 < k := hk1
      simp [ringInner, h1, h0]

/-- Witness for generateRings_radii_ok at neighborRange = 2, ringCount = 2. -/
theorem generateRings_radii_ok_witness :
    (∀ i < 2, ringInner 2 2 i ≤ ringOuter 2 2 i) ∧ ringInner 2 2 0 = 1 :=
  generateRings_radii_ok 2 2 (by norm_num) (by norm_num) (by norm_num) (by norm_num)

/-! The mutable simulation state of src/main.js, gathered into one record.  weights and
rules model the fixed-capacity Float32Array(MAX_N_STATES) and Uint8Array(MAX_N_RULES):
a list entry beyond the physical length reads as 0 via getD, matching a typed array whose
remaining slots are zero.  The ring arrays are recomputed from (neighborRange, nRings) on
every configuration change, so they appear as the derived functions above rather than as
fields. -/

structure HistoryEntry where
  rules : List ℕ
  minNeighborWeight : ℤ
deriving DecidableEq

structure CAState where
  nStates : ℕ
  neighborRange : ℕ
  nRings : ℕ
  cellInertia : ℚ
  isVonNeumann : Bool
  nextWeightsIdx : ℕ
  paletteId : ℕ × ℕ × ℕ
  minNeighborWeight : ℤ
  weights : List ℚ
  rules : List ℕ
  history : List HistoryEntry
deriving DecidableEq

/-- Minimum of a weight slice, valid on nonempty slices only.  The source folds with
initial accumulator Infinity over Array.from(weights.slice(0, nStates)); jsMinFold
below reproduces that fold exactly (Infinity seed included), and jsMinFold_eq proves it
equal to this simplified function on every nonempty slice.  The empty slice (nStates = 0,
installable only by decoding a malformed buffer) keeps the Infinity seed and is covered
by the JSNum model, not by this function. -/
def jsListMin (l : List ℚ) : ℚ := l.foldl min (l.headD 0)

/-- Maximum of a weight slice, valid on nonempty slices only; the source folds with
initial accumulator -Infinity (jsMaxFold below, with jsMaxFold_eq as the bridge). -/
def jsListMax (l : List ℚ) : ℚ := l.foldl max (l.headD 0)

def minWeightOf (s : CAState) : ℚ := jsListMin (s.weights.take s.nStates)

def maxWeightOf (s : CAState) : ℚ := jsListMax (s.weights.take s.nStates)

def cellsInRing (s : CAState) (i : ℕ) : ℕ :=
  countCellsInRing (ringInner s.neighborRange s.nRings i) (ringOuter s.neighborRange s.nRings i)

/-- totalMaxSum as computed by getCurrentRuleCount and pushRulesetToHistory in
src/main.js: (rw >= 0 ? maxWeight : minWeight) * cells * Math.abs(rw), summed over the
first nRings rings.  Valid for nStates ≥ 1 and nRings ≤ MAX_N_RINGS: for nRings beyond
the ring-array capacity the source reads undefined and the sum becomes NaN, which
totalMaxSumJS below models faithfully; getCurrentRuleCountJS_agrees proves the two
computations coincide on the well-formed domain. -/
def totalMaxSumAbs (s : CAState) : ℚ :=
  ∑ i ∈ Finset.range s.nRings,
    (if 0 ≤ ringWeight s.nRings i then maxWeightOf s else minWeightOf s) *
      (cellsInRing s i : ℚ) * |ringWeight s.nRings i|

/-- nRulesNeeded = Math.floor(totalMaxSum) - minNeighborWeight + 1. -/
def nRulesNeeded (s : CAState) : ℤ := ⌊totalMaxSumAbs s⌋ - s.minNeighborWeight + 1

/-- getCurrentRuleCount in src/main.js: Math.min(Math.max(nRulesNeeded, 1), MAX_N_RULES). -/
def getCurrentRuleCount (s : CAState) : ℕ :=
  (min (max (nRulesNeeded s) 1) (MAX_N_RULES : ℤ)).toNat

def MAX_RULESET_HISTORY : ℕ := 128

/-- pushRulesetToHistory in src/main.js: recompute the needed rule count (same formula as
getCurrentRuleCount); bail out without pushing when it is < 1; otherwise push a snapshot
of the first ruleCount rule entries and the current minNeighborWeight, evicting the oldest
entry when the stack exceeds its capacity. -/
def pushRulesetToHistory (s : CAState) : CAState :=
  if nRulesNeeded s < 1 then s
  else
    let rc := (min (nRulesNeeded s) (MAX_N_RULES : ℤ)).toNat
    let h := s.history ++ [⟨s.rules.take rc, s.minNeighborWeight⟩]
    { s with history := if MAX_RULESET_HISTORY < h.length then h.drop 1 else h }

/-- restorePriorRuleset in src/main.js: pop the most recent entry (no-op when the history
is empty), zero the whole rule array, copy the snapshot in at index 0 and restore
minNeighborWeight. -/
def restorePriorRuleset (s : CAState) : CAState :=
  match s.history.getLast? with
  | none => s
  | some e =>
    { s with
      rules := e.rules ++ List.replicate (MAX_N_RULES - e.rules.length) 0
      minNeighborWeight := e.minNeighborWeight
      history := s.history.dropLast }

/-- Validity of a Math.random draw stream: every draw lies in [0, 1). -/
def URand (u : ℕ → ℚ) : Prop := ∀ n, 0 ≤ u n ∧ u n < 1

/-- Math.floor(x * n) for a draw x, the uniform index pattern of the source. -/
def randIndex (x : ℚ) (n : ℕ) : ℕ := (⌊x * (n : ℚ)⌋).toNat

/-- Math.random() < cellInertia ? 0 : Math.floor(Math.random() * (nStates + 1)), paired
with the updated draw counter (the second draw happens only in the else branch). -/
def randCell (ns : ℕ) (ci : ℚ) (u : ℕ → ℚ) (c : ℕ) : ℕ × ℕ :=
  if u c < ci then (0, c + 1)
  else ((⌊u (c + 1) * ((ns : ℚ) + 1)⌋).toNat, c + 2)

/-- Body of the Array.from initializer in generateNewRuleset: index i gets i + 1 when
i < nStates and cellInertia < 1, otherwise a randCell value.  The last argument counts
the remaining indices; the draw counter is threaded left to right. -/
def genRulesGo (ns : ℕ) (ci : ℚ) (u : ℕ → ℚ) : ℕ → ℕ → ℕ → List ℕ × ℕ
  | _, c, 0 => ([], c)
  | i, c, fuel + 1 =>
    if i < ns ∧ ci < 1 then
      let r := genRulesGo ns ci u (i + 1) c fuel
      ((i + 1) :: r.1, r.2)
    else
      let v := randCell ns ci u c
      let r := genRulesGo ns ci u (i + 1) v.2 fuel
      (v.1 :: r.1, r.2)

/-- The in-place swap idiom of the source (tmp = a[i]; a[i] = a[j]; a[j] = tmp). -/
def listSwap (l : List ℕ) (i j : ℕ) : List ℕ :=
  (l.set i (l.getD j 0)).set j (l.getD i 0)

/-- shuffleArray (src/util.js): Fisher-Yates from index length - 1 down to 1; the last
argument is the current index i, and j = Math.floor(Math.random() * (i + 1)). -/
def shuffleGo (u : ℕ → ℚ) : ℕ → List ℕ → ℕ → List ℕ
  | _, l, 0 => l
  | c, l, i + 1 => shuffleGo u (c + 1) (listSwap l (i + 1) (randIndex (u c) (i + 2))) i

def shuffleArray (u : ℕ → ℚ) (c : ℕ) (l : List ℕ) : List ℕ :=
  if l.length ≤ 1 then l else shuffleGo u c l (l.length - 1)

/-- rules.set(newRules, 0): overwrite the first newRules.length entries, keep the rest. -/
def writeRulesAt0 (old new : List ℕ) : List ℕ := new ++ old.drop new.length

/-- generateNewRuleset in src/main.js.  Note that entries at index ≥ ruleCount are left
untouched (there is no fill(0) here). -/
def generateNewRuleset (s : CAState) (u : ℕ → ℚ) (c : ℕ) : CAState :=
  let rc := getCurrentRuleCount s
  if rc < 1 then s
  else
    let g := genRulesGo s.nStates s.cellInertia u 0 c rc
    { s with rules := writeRulesAt0 s.rules (shuffleArray u g.2 g.1) }

inductive MutationVariant
  | swap
  | point

/-- Math.max(1, Math.floor(ruleCount * 0.1)), the mutation count of both variants. -/
def nMutations (rc : ℕ) : ℕ := max 1 (⌊(rc : ℚ) * (1 / 10)⌋).toNat

def swapLoop (u : ℕ → ℚ) (rc : ℕ) : ℕ → List ℕ → ℕ → List ℕ
  | _, l, 0 => l
  | c, l, n + 1 =>
    swapLoop u rc (c + 2) (listSwap l (randIndex (u c) rc) (randIndex (u (c + 1)) rc)) n

def pointLoop (ns : ℕ) (ci : ℚ) (u : ℕ → ℚ) (rc : ℕ) : ℕ → List ℕ → ℕ → List ℕ
  | _, l, 0 => l
  | c, l, n + 1 =>
    let i := randIndex (u c) rc
    let v := randCell ns ci u (c + 1)
    pointLoop ns ci u rc v.2 (l.set i v.1) n

/-- mutateRuleset in src/main.js: push to history first, then recompute the rule count
and run the selected mutation loop over the first ruleCount entries. -/
def mutateRuleset (variant : MutationVariant) (s : CAState) (u : ℕ → ℚ) (c : ℕ) : CAState :=
  let s1 := pushRulesetToHistory s
  let rc := getCurrentRuleCount s1
  if rc < 1 then s1
  else
    match variant with
    | .swap => { s1 with rules := swapLoop u rc c s1.rules (nMutations rc) }
    | .point =>
      { s1 with rules := pointLoop s1.nStates s1.cellInertia u rc c s1.rules (nMutations rc) }

/-! State codec (packState / unpackState in src/main.js).  Bytes are naturals < 256;
multi-byte fields are little-endian as in the source DataView calls. -/

def STATE_VERSION : ℕ := 1

def WEIGHT_SCALE : ℚ := 255 / MAX_WEIGHT

/-- Math.round, i.e. floor(x + 1/2): JavaScript rounds half-up. -/
def jsRound (x : ℚ) : ℤ := ⌊x + 1 / 2⌋

/-- Uint8Array store semantics: values are kept modulo 256. -/
def toByte (z : ℤ) : ℕ := (z % 256).toNat

/-- Weight quantization in packState: Math.min(255, Math.round(w * WEIGHT_SCALE)), stored
into a Uint8Array slot. -/
def quantizeWeight (w : ℚ) : ℕ := toByte (min 255 (jsRound (w * WEIGHT_SCALE)))

/-- packState in src/main.js.  The flags byte is (isVonNeumann ? 1 : 0) | (nextWeightsIdx
<< 1); since the two operands occupy disjoint bits the bitwise or is written as an
addition.  setInt16 stores minNeighborWeight as its two's-complement low and high bytes;
setUint16 stores ruleCount likewise. -/
def packState (s : CAState) : Option (List ℕ) :=
  let rc := getCurrentRuleCount s
  if rc < 1 then none
  else
    let m : ℕ := (s.minNeighborWeight % 65536).toNat
    some (STATE_VERSION :: s.nStates % 256 :: s.neighborRange % 256 :: s.nRings % 256 ::
      toByte (jsRound (s.cellInertia * 255)) ::
      ((cond s.isVonNeumann 1 0) + 2 * s.nextWeightsIdx) % 256 ::
      s.paletteId.1 % 256 :: s.paletteId.2.1 % 256 :: s.paletteId.2.2 % 256 ::
      m % 256 :: m / 256 % 256 :: rc % 256 :: rc / 256 % 256 ::
      (((List.range rc).map fun i => s.rules.getD i 0 % 256) ++
        ((List.range s.nStates).map fun i => quantizeWeight (s.weights.getD i 0))))

/-- getInt16 little-endian on two bytes. -/
def int16OfBytes (lo hi : ℕ) : ℤ :=
  if (lo : ℤ) + 256 * hi < 32768 then (lo : ℤ) + 256 * hi else (lo : ℤ) + 256 * hi - 65536

/-- unpackState in src/main.js, parameterized by the palette id list of palettes.js
(palettes.js is not among the provided sources; per the spec a palette provider maps a
3-ASCII-character paletteId to colors, with the first id as fallback for unknown ids).
All fields are decoded into temporaries and validated before anything is committed; on
validation failure the function returns none and the caller keeps its previous state.
On success the whole rule array is zeroed and the decoded entries written at index 0
(out-of-range typed array stores are dropped, hence the min with the capacities). -/
def unpackState (knownIds : List (ℕ × ℕ × ℕ)) (firstId : ℕ × ℕ × ℕ)
    (buf : List ℕ) (s : CAState) : Option (CAState × ℕ) :=
  if buf.length < 13 then none
  else if buf.getD 0 0 ≠ STATE_VERSION then none
  else
    let ns := buf.getD 1 0
    let nr := buf.getD 2 0
    let k := buf.getD 3 0
    let ci : ℚ := (buf.getD 4 0 : ℚ) / 255
    let flags := buf.getD 5 0
    let pal := (buf.getD 6 0, buf.getD 7 0, buf.getD 8 0)
    let mnw := int16OfBytes (buf.getD 9 0) (buf.getD 10 0)
    let rc := buf.getD 11 0 + 256 * buf.getD 12 0
    if buf.length < 13 + rc + ns then none
    else
      some ({ s with
        nStates := ns
        neighborRange := nr
        nRings := k
        cellInertia := ci
        isVonNeumann := flags % 2 == 1
        nextWeightsIdx := flags / 2 % 4
        paletteId := if pal ∈ knownIds then pal else firstId
        minNeighborWeight := mnw
        rules := (buf.drop 13).take (min rc MAX_N_RULES) ++
          List.replicate (MAX_N_RULES - min rc MAX_N_RULES) 0
        weights := ((buf.drop (13 + rc)).take (min ns MAX_N_STATES)).map
            (fun b : ℕ => (b : ℚ) / WEIGHT_SCALE) ++
          s.weights.drop (min ns MAX_N_STATES) },
        rc)

/-- The caller-visible effect of a decode attempt: restoreStateFromUrl keeps the previous
state when unpackState reports failure. -/
def applyUnpack (knownIds : List (ℕ × ℕ × ℕ)) (firstId : ℕ × ℕ × ℕ)
    (buf : List ℕ) (s : CAState) : CAState :=
  match unpackState knownIds firstId buf s with
  | none => s
  | some r => r.1

/-- The rule-table invariant of the spec: every entry at index ≥ n is zero. -/
def ZeroBeyond (l : List ℕ) (n : ℕ) : Prop := ∀ i, n ≤ i → l.getD i 0 = 0

/-- A concrete state used by witnesses: the start-up configuration after
setNeighborRange(2) would give neighborRange 2; here a one-ring range-1 variant with the
alternating weight distribution, for which the derived rule count is 7. -/
def sampleState : CAState :=
  { nStates := 2
    neighborRange := 1
    nRings := 1
    cellInertia := 4 / 5
    isVonNeumann := false
    nextWeightsIdx := 0
    paletteId := (97, 98, 99)
    minNeighborWeight := 0
    weights := [0, MAX_WEIGHT]
    rules := [1, 2, 0, 1, 2, 0, 1]
    history := [] }

/-! Basic facts about the clamped rule count. -/

theorem getCurrentRuleCount_pos (s : CAState) : 1 ≤ getCurrentRuleCount s := by
  unfold getCurrentRuleCount
  have hM : (1 : ℤ) ≤ (MAX_N_RULES : ℤ) := by rw [MAX_N_RULES_eq]; norm_num
  have h2 : (1 : ℤ) ≤ min (max (nRulesNeeded s) 1) (MAX_N_RULES : ℤ) :=
    le_min (le_max_right _ _) hM
  omega

theorem getCurrentRuleCount_le (s : CAState) : getCurrentRuleCount s ≤ MAX_N_RULES := by
  unfold getCurrentRuleCount
  have h2 : min (max (nRulesNeeded s) 1) (MAX_N_RULES : ℤ) ≤ (MAX_N_RULES : ℤ) :=
    min_le_right _ _
  omega

/-! pushRulesetToHistory changes only the history field. -/

theorem push_rules (s : CAState) : (pushRulesetToHistory s).rules = s.rules := by
  unfold pushRulesetToHistory
  split <;> rfl

theorem push_minNeighborWeight (s : CAState) :
    (pushRulesetToHistory s).minNeighborWeight = s.minNeighborWeight := by
  unfold pushRulesetToHistory
  split <;> rfl

theorem push_nStates (s : CAState) : (pushRulesetToHistory s).nStates = s.nStates := by
  unfold pushRulesetToHistory
  split <;> rfl

theorem push_cellInertia (s : CAState) :
    (pushRulesetToHistory s).cellInertia = s.cellInertia := by
  unfold pushRulesetToHistory
  split <;> rfl

theorem getCurrentRuleCount_push (s : CAState) :
    getCurrentRuleCount (pushRulesetToHistory s) = getCurrentRuleCount s := by
  unfold pushRulesetToHistory
  split <;> rfl

/-! Faithful model of the JavaScript numbers flowing through the bounds computation.
The simplified rational functions above (jsListMin, jsListMax, totalMaxSumAbs) describe
the computation only on well-formed states; decoding a malformed buffer can install
nStates = 0 (the weight fold then keeps its Infinity seeds) or nRings > MAX_N_RINGS (the
ring loop then reads undefined past the 8-slot Float32Arrays, which arithmetic coerces
to NaN).  The JSNum model below reproduces the source on all of these states, and
getCurrentRuleCountJS_agrees proves that it coincides with the rational model exactly on
the well-formed ones. -/

inductive JSNum
  | num (q : ℚ)
  | posInf
  | negInf
  | nan
deriving DecidableEq

namespace JSNum

/-- The < comparison of JavaScript: false whenever either operand is NaN. -/
def lt : JSNum → JSNum → Bool
  | num a, num b => decide (a < b)
  | num _, posInf => true
  | negInf, num _ => true
  | negInf, posInf => true
  | _, _ => false

/-- The >= 0 test (rw >= 0 in the source): false for NaN (an undefined array read). -/
def ge0 : JSNum → Bool
  | num a => decide (0 ≤ a)
  | posInf => true
  | negInf => false
  | nan => false

def add : JSNum → JSNum → JSNum
  | nan, _ => nan
  | _, nan => nan
  | num a, num b => num (a + b)
  | num _, posInf => posInf
  | num _, negInf => negInf
  | posInf, num _ => posInf
  | negInf, num _ => negInf
  | posInf, posInf => posInf
  | negInf, negInf => negInf
  | posInf, negInf => nan
  | negInf, posInf => nan

def neg : JSNum → JSNum
  | num a => num (-a)
  | posInf => negInf
  | negInf => posInf
  | nan => nan

def sub (a b : JSNum) : JSNum := add a (neg b)

/-- IEEE multiplication: NaN propagates and 0 * Infinity is NaN. -/
def mul : JSNum → JSNum → JSNum
  | nan, _ => nan
  | _, nan => nan
  | num a, num b => num (a * b)
  | num a, posInf => if a = 0 then nan else if 0 < a then posInf else negInf
  | num a, negInf => if a = 0 then nan else if 0 < a then negInf else posInf
  | posInf, num b => if b = 0 then nan else if 0 < b then posInf else negInf
  | negInf, num b => if b = 0 then nan else if 0 < b then negInf else posInf
  | posInf, posInf => posInf
  | posInf, negInf => negInf
  | negInf, posInf => negInf
  | negInf, negInf => posInf

/-- Math.abs: NaN for NaN, positive infinity for both infinities. -/
def abs : JSNum → JSNum
  | num a => num |a|
  | nan => nan
  | _ => posInf

/-- Math.floor: NaN and the infinities are returned unchanged. -/
def jsfloor : JSNum → JSNum
  | num a => num ⌊a⌋
  | x => x

/-- Math.max: NaN if either argument is NaN. -/
def jsmax : JSNum → JSNum → JSNum
  | nan, _ => nan
  | _, nan => nan
  | posInf, _ => posInf
  | _, posInf => posInf
  | negInf, b => b
  | a, negInf => a
  | num a, num b => num (max a b)

/-- Math.min: NaN if either argument is NaN. -/
def jsmin : JSNum → JSNum → JSNum
  | nan, _ => nan
  | _, nan => nan
  | negInf, _ => negInf
  | _, negInf => negInf
  | posInf, b => b
  | a, posInf => a
  | num a, num b => num (min a b)

end JSNum

/-- The weight-extrema reduce of the source with its Infinity seed:
if (weight < acc.minWeight) acc.minWeight = weight, starting from Infinity.  On the
empty slice (nStates = 0) the seed survives, exactly as in the source. -/
def jsMinFold (l : List ℚ) : JSNum :=
  l.foldl (fun acc w => if JSNum.lt (.num w) acc then .num w else acc) .posInf

/-- The maxWeight reduce, seeded with -Infinity. -/
def jsMaxFold (l : List ℚ) : JSNum :=
  l.foldl (fun acc w => if JSNum.lt acc (.num w) then .num w else acc) .negInf

/-- A read of ringWeights[i]: generateRings only ever writes indices < MAX_N_RINGS (the
Float32Arrays have 8 slots; out-of-range stores are dropped), so a read past the end
yields undefined, which the caller's arithmetic coerces to NaN. -/
def ringWeightRead (k i : ℕ) : JSNum :=
  if i < MAX_N_RINGS then .num (ringWeight k i) else .nan

/-- countCellsInRing as called by the bounds loop: for i ≥ MAX_N_RINGS the radii read as
undefined, Math.floor(undefined) is NaN, both loop bounds are NaN and the body never
runs, so the count is 0; for i < MAX_N_RINGS the radii are the stored formula values. -/
def cellsInRingJS (s : CAState) (i : ℕ) : ℕ :=
  if i < MAX_N_RINGS then cellsInRing s i else 0

/-- totalMaxSum of getCurrentRuleCount / pushRulesetToHistory over the faithful number
model: totalMaxSum += (rw >= 0 ? maxWeight : minWeight) * cells * Math.abs(rw). -/
def totalMaxSumJS (s : CAState) : JSNum :=
  (List.range s.nRings).foldl
    (fun acc i => JSNum.add acc (JSNum.mul (JSNum.mul
      (if JSNum.ge0 (ringWeightRead s.nRings i) then jsMaxFold (s.weights.take s.nStates)
        else jsMinFold (s.weights.take s.nStates))
      (.num (cellsInRingJS s i))) (JSNum.abs (ringWeightRead s.nRings i))))
    (.num 0)

/-- nRulesNeeded = Math.floor(totalMaxSum) - minNeighborWeight + 1 over the model. -/
def nRulesNeededJS (s : CAState) : JSNum :=
  JSNum.add (JSNum.sub (JSNum.jsfloor (totalMaxSumJS s))
    (.num (s.minNeighborWeight : ℚ))) (.num 1)

/-- getCurrentRuleCount over the faithful number model:
Math.min(Math.max(nRulesNeeded, 1), MAX_N_RULES); NaN propagates through both. -/
def getCurrentRuleCountJS (s : CAState) : JSNum :=
  JSNum.jsmin (JSNum.jsmax (nRulesNeededJS s) (.num 1)) (.num (MAX_N_RULES : ℚ))

/-- The property C10 claims of getCurrentRuleCount's result: a finite value in
[1, MAX_N_RULES].  NaN and the infinities do not satisfy it. -/
def InRuleRange : JSNum → Prop
  | .num q => 1 ≤ q ∧ q ≤ (MAX_N_RULES : ℚ)
  | _ => False

theorem jsMinFold_go : ∀ (l : List ℚ) (a : ℚ),
    l.foldl (fun acc w => if JSNum.lt (.num w) acc then .num w else acc) (.num a) =
      .num (l.foldl min a)
  | [], _ => rfl
  | x :: t, a => by
    simp only [List.foldl_cons]
    have hstep : (if JSNum.lt (.num x) (.num a) then JSNum.num x else JSNum.num a) =
        .num (min a x) := by
      by_cases h : x < a
      · rw [if_pos (by simp [JSNum.lt, h]), min_eq_right (le_of_lt h)]
      · rw [if_neg (by simp [JSNum.lt, h]), min_eq_left (le_of_not_lt h)]
    rw [hstep]
    exact jsMinFold_go t (min a x)

theorem jsMaxFold_go : ∀ (l : List ℚ) (a : ℚ),
    l.foldl (fun acc w => if JSNum.lt acc (.num w) then .num w else acc) (.num a) =
      .num (l.foldl max a)
  | [], _ => rfl
  | x :: t, a => by
    simp only [List.foldl_cons]
    have hstep : (if JSNum.lt (.num a) (.num x) then JSNum.num x else JSNum.num a) =
        .num (max a x) := by
      by_cases h : a < x
      · rw [if_pos (by simp [JSNum.lt, h]), max_eq_right (le_of_lt h)]
      · rw [if_neg (by simp [JSNum.lt, h]), max_eq_left (le_of_not_lt h)]
    rw [hstep]
    exact jsMaxFold_go t (max a x)

/-- On a nonempty slice the Infinity-seeded fold equals the simplified jsListMin. -/
theorem jsMinFold_eq (l : List ℚ) (h : l ≠ []) : jsMinFold l = .num (jsListMin l) := by
  cases l with
  | nil => exact absurd rfl h
  | cons w t =>
    rw [jsMinFold, List.foldl_cons]
    rw [show (if JSNum.lt (.num w) JSNum.posInf then JSNum.num w else JSNum.posInf) =
        .num w from by simp [JSNum.lt]]
    rw [jsMinFold_go t w, jsListMin]
    simp only [List.headD_cons, List.foldl_cons, min_self]

/-- On a nonempty slice the -Infinity-seeded fold equals the simplified jsListMax. -/
theorem jsMaxFold_eq (l : List ℚ) (h : l ≠ []) : jsMaxFold l = .num (jsListMax l) := by
  cases l with
  | nil => exact absurd rfl h
  | cons w t =>
    rw [jsMaxFold, List.foldl_cons]
    rw [show (if JSNum.lt JSNum.negInf (.num w) then JSNum.num w else JSNum.negInf) =
        .num w from by simp [JSNum.lt]]
    rw [jsMaxFold_go t w, jsListMax]
    simp only [List.headD_cons, List.foldl_cons, max_self]

theorem totalMaxSumJS_go (s : CAState) (hmin hmax : ℚ)
    (hminEq : jsMinFold (s.weights.take s.nStates) = .num hmin)
    (hmaxEq : jsMaxFold (s.weights.take s.nStates) = .num hmax) :
    ∀ (n : ℕ), n ≤ MAX_N_RINGS → ∀ a : ℚ,
      (List.range n).foldl
        (fun acc i => JSNum.add acc (JSNum.mul (JSNum.mul
          (if JSNum.ge0 (ringWeightRead s.nRings i) then
            jsMaxFold (s.weights.take s.nStates)
          else jsMinFold (s.weights.take s.nStates))
          (.num (cellsInRingJS s i))) (JSNum.abs (ringWeightRead s.nRings i))))
        (.num a) =
      .num (a + ∑ i ∈ Finset.range n,
        (if 0 ≤ ringWeight s.nRings i then hmax else hmin) *
          (cellsInRing s i : ℚ) * |ringWeight s.nRings i|)
  | 0, _, a => by simp
  | n + 1, h, a => by
    rw [List.range_succ, List.foldl_append,
      totalMaxSumJS_go s hmin hmax hminEq hmaxEq n (by omega) a]
    simp only [List.foldl_cons, List.foldl_nil]
    have hn8 : n < MAX_N_RINGS := by omega
    rw [show ringWeightRead s.nRings n = .num (ringWeight s.nRings n) from by
      rw [ringWeightRead, if_pos hn8]]
    rw [show cellsInRingJS s n = cellsInRing s n from by rw [cellsInRingJS, if_pos hn8]]
    rw [hminEq, hmaxEq, Finset.sum_range_succ]
    by_cases hge : 0 ≤ ringWeight s.nRings n
    · rw [if_pos (by simp [JSNum.ge0, hge]), if_pos hge]
      simp only [JSNum.mul, JSNum.abs, JSNum.add]
      congr 1
      ring
    · rw [if_neg (by simp [JSNum.ge0, hge]), if_neg hge]
      simp only [JSNum.mul, JSNum.abs, JSNum.add]
      congr 1
      ring

/-- On every well-formed state — nStates ≥ 1, nRings within the ring-array capacity and
the weight list covering the read slice — the faithful number model agrees with the
simplified rational computation; NaN and the infinities arise only outside this domain. -/
theorem getCurrentRuleCountJS_agrees (s : CAState) (hns : 1 ≤ s.nStates)
    (hk : s.nRings ≤ MAX_N_RINGS) (hwlen : s.nStates ≤ s.weights.length) :
    getCurrentRuleCountJS s = .num (getCurrentRuleCount s) := by
  have hne : s.weights.take s.nStates ≠ [] := by
    intro hcontra
    have hl := congrArg List.length hcontra
    rw [List.length_take] at hl
    simp only [List.length_nil] at hl
    omega
  have hminEq := jsMinFold_eq _ hne
  have hmaxEq := jsMaxFold_eq _ hne
  have htot : totalMaxSumJS s = .num (totalMaxSumAbs s) := by
    rw [totalMaxSumJS,
      totalMaxSumJS_go s (jsListMin (s.weights.take s.nStates))
        (jsListMax (s.weights.take s.nStates)) hminEq hmaxEq s.nRings hk 0]
    rw [totalMaxSumAbs]
    simp only [minWeightOf, maxWeightOf, zero_add]
  rw [getCurrentRuleCountJS, nRulesNeededJS, htot]
  simp only [JSNum.jsfloor, JSNum.sub, JSNum.neg, JSNum.add, JSNum.jsmax, JSNum.jsmin]
  congr 1
  have h1 : (1 : ℤ) ≤ min (max (nRulesNeeded s) 1) (MAX_N_RULES : ℤ) :=
    le_min (le_max_right _ _) (by rw [MAX_N_RULES_eq]; norm_num)
  rw [getCurrentRuleCount]
  have h2 : ((min (max (nRulesNeeded s) 1) (MAX_N_RULES : ℤ)).toNat : ℚ) =
      ((min (max (nRulesNeeded s) 1) (MAX_N_RULES : ℤ) : ℤ) : ℚ) := by
    have h3 : ((min (max (nRulesNeeded s) 1) (MAX_N_RULES : ℤ)).toNat : ℤ) =
        min (max (nRulesNeeded s) 1) (MAX_N_RULES : ℤ) := Int.toNat_of_nonneg (by omega)
    exact_mod_cast congrArg (fun z : ℤ => (z : ℚ)) h3
  rw [h2, nRulesNeeded]
  push_cast
  ring

/-- C10, amended.  In every state with nStates ≥ 1 and nRings ≤ MAX_N_RINGS (every state
not installed by decoding a malformed buffer), getCurrentRuleCount returns a finite
value in [1, MAX_N_RULES] — so packState never returns null and the ruleCount < 1
early-return guards in packState, generateNewRuleset and mutateRuleset are unreachable
there.  Outside that domain (decoded nRings > MAX_N_RINGS, or nStates = 0) the source's
computation produces NaN, which lies outside [1, MAX_N_RULES]; see the counterexample. -/
theorem getCurrentRuleCount_clamped_amended (s : CAState) (hns : 1 ≤ s.nStates)
    (hk : s.nRings ≤ MAX_N_RINGS) (hwlen : s.nStates ≤ s.weights.length) :
    getCurrentRuleCountJS s = .num (getCurrentRuleCount s) ∧
    InRuleRange (getCurrentRuleCountJS s) ∧
    1 ≤ getCurrentRuleCount s ∧ getCurrentRuleCount s ≤ MAX_N_RULES ∧
    packState s ≠ none := by
  have hag := getCurrentRuleCountJS_agrees s hns hk hwlen
  refine ⟨hag, ?_, getCurrentRuleCount_pos s, getCurrentRuleCount_le s, ?_⟩
  · rw [hag]
    exact ⟨by exact_mod_cast getCurrentRuleCount_pos s,
      by exact_mod_cast getCurrentRuleCount_le s⟩
  · have h := getCurrentRuleCount_pos s
    simp only [packState]
    rw [if_neg (by omega)]
    simp

/-- Witness for getCurrentRuleCount_clamped_amended at the concrete sampleState. -/
theorem getCurrentRuleCount_clamped_amended_witness :
    getCurrentRuleCountJS sampleState = .num (getCurrentRuleCount sampleState) ∧
    InRuleRange (getCurrentRuleCountJS sampleState) ∧
    1 ≤ getCurrentRuleCount sampleState ∧ getCurrentRuleCount sampleState ≤ MAX_N_RULES ∧
    packState sampleState ≠ none :=
  getCurrentRuleCount_clamped_amended sampleState (by norm_num [sampleState])
    (by norm_num [sampleState, MAX_N_RINGS]) (by norm_num [sampleState])

/-- A state reachable by decoding a crafted buffer with nRings = 9: unpackState accepts
any nRings byte, generateRings then writes only the 8 physical ring slots, and the
bounds loop reads ringWeights[8] = undefined. -/
def C10s : CAState :=
  { nStates := 2
    neighborRange := 1
    nRings := 9
    cellInertia := 0
    isVonNeumann := false
    nextWeightsIdx := 0
    paletteId := (97, 98, 99)
    minNeighborWeight := 0
    weights := [0, 0]
    rules := [0]
    history := [] }

/-- C10, counterexample.  In the crafted-decode state C10s (nRings = 9) the ninth loop
iteration reads ringWeights[8] = undefined: Math.abs(undefined) = NaN poisons
totalMaxSum, Math.floor(NaN) = NaN, and Math.min(Math.max(NaN, 1), MAX_N_RULES) = NaN —
getCurrentRuleCount does not return a value in [1, MAX_N_RULES] in this program state. -/
theorem getCurrentRuleCount_nan_counterexample :
    getCurrentRuleCountJS C10s = JSNum.nan ∧
    ¬ InRuleRange (getCurrentRuleCountJS C10s) := by
  have hminf : jsMinFold (C10s.weights.take C10s.nStates) = .num 0 := by
    show jsMinFold [0, 0] = .num 0
    norm_num [jsMinFold, JSNum.lt]
  have hmaxf : jsMaxFold (C10s.weights.take C10s.nStates) = .num 0 := by
    show jsMaxFold [0, 0] = .num 0
    norm_num [jsMaxFold, JSNum.lt]
  have hrange : List.range 9 = [0, 1, 2, 3, 4, 5, 6, 7, 8] := by decide
  have htotal : totalMaxSumJS C10s = JSNum.nan := by
    rw [totalMaxSumJS, show C10s.nRings = 9 from rfl, hrange]
    simp only [List.foldl_cons, List.foldl_nil, hminf, hmaxf, ite_self]
    norm_num [ringWeightRead, cellsInRingJS, MAX_N_RINGS, JSNum.mul, JSNum.abs,
      JSNum.add]
  have hmain : getCurrentRuleCountJS C10s = JSNum.nan := by
    rw [getCurrentRuleCountJS, nRulesNeededJS, htotal]
    rfl
  refine ⟨hmain, ?_⟩
  rw [hmain]
  simp [InRuleRange]

/-! List helpers. -/

theorem getD_take_lt (l : List ℕ) (n i : ℕ) (h : i < n) (hn : n ≤ l.length) :
    (l.take n).getD i 0 = l.getD i 0 := by
  rw [List.getD_eq_getElem _ _ (by simp; omega), List.getD_eq_getElem _ _ (by omega),
    List.getElem_take]

theorem take_set_comm (l : List ℕ) (i n a : ℕ) :
    (l.set i a).take n = (l.take n).set i a := by
  apply List.ext_getElem
  · simp
  · intro k h1 h2
    rw [List.getElem_take, List.getElem_set, List.getElem_set]
    split
    · rfl
    · rw [List.getElem_take]

theorem getD_set_ne (l : List ℕ) (i j v : ℕ) (h : i ≠ j) :
    (l.set i v).getD j 0 = l.getD j 0 := by
  by_cases hj : j < l.length
  · rw [List.getD_eq_getElem _ _ (by simpa using hj), List.getD_eq_getElem _ _ hj,
      List.getElem_set_ne h]
  · rw [List.getD_eq_default _ _ (by simpa using Nat.le_of_not_lt hj),
      List.getD_eq_default _ _ (Nat.le_of_not_lt hj)]

theorem getD_replicate_zero (n k : ℕ) : (List.replicate n (0 : ℕ)).getD k 0 = 0 := by
  by_cases h : k < n
  · rw [List.getD_eq_getElem _ _ (by simpa using h)]
    simp
  · exact List.getD_eq_default _ _ (by simpa using Nat.le_of_not_lt h)

/-- Moving the k-th element of a list to the front while writing a at position k is a
permutation of consing a. -/
theorem cons_set_perm (a : ℕ) : ∀ (t : List ℕ) (k : ℕ), k < t.length →
    (t.getD k 0 :: t.set k a).Perm (a :: t)
  | [], k, h => by simp at h
  | b :: t, 0, h => by
    simp only [List.getD_cons_zero, List.set_cons_zero]
    exact List.Perm.swap a b t
  | b :: t, k + 1, h => by
    simp only [List.getD_cons_succ, List.set_cons_succ]
    have h1 : (t.getD k 0 :: b :: t.set k a).Perm (b :: t.getD k 0 :: t.set k a) :=
      List.Perm.swap b (t.getD k 0) (t.set k a)
    have h2 : (b :: t.getD k 0 :: t.set k a).Perm (b :: a :: t) :=
      (cons_set_perm a t k (by simpa using h)).cons b
    have h3 : (b :: a :: t).Perm (a :: b :: t) := List.Perm.swap a b t
    exact (h1.trans h2).trans h3

/-- The source's swap idiom is a permutation when both indices are in bounds. -/
theorem set_set_swap_perm : ∀ (l : List ℕ) (i j : ℕ), i < l.length → j < l.length →
    (listSwap l i j).Perm l
  | l, 0, 0, hi, _ => by
    cases l with
    | nil => simp at hi
    | cons a t => simp [listSwap]
  | l, 0, j + 1, hi, hj => by
    cases l with
    | nil => simp at hi
    | cons a t =>
      unfold listSwap
      simp only [List.getD_cons_zero, List.getD_cons_succ, List.set_cons_zero,
        List.set_cons_succ]
      exact cons_set_perm a t j (by simpa using hj)
  | l, i + 1, 0, hi, _ => by
    cases l with
    | nil => simp at hi
    | cons a t =>
      unfold listSwap
      simp only [List.getD_cons_zero, List.getD_cons_succ, List.set_cons_zero,
        List.set_cons_succ]
      exact cons_set_perm a t i (by simpa using hi)
  | l, i + 1, j + 1, hi, hj => by
    cases l with
    | nil => simp at hi
    | cons a t =>
      unfold listSwap
      simp only [List.getD_cons_succ, List.set_cons_succ]
      exact (set_set_swap_perm t i j (by simpa using hi) (by simpa using hj)).cons a

theorem listSwap_length (l : List ℕ) (i j : ℕ) : (listSwap l i j).length = l.length := by
  simp [listSwap]

theorem listSwap_take (l : List ℕ) (n i j : ℕ) (hi : i < n) (hj : j < n)
    (hn : n ≤ l.length) : (listSwap l i j).take n = listSwap (l.take n) i j := by
  unfold listSwap
  rw [take_set_comm, take_set_comm, getD_take_lt l n i hi hn, getD_take_lt l n j hj hn]

theorem randIndex_lt (x : ℚ) (n : ℕ) (h0 : 0 ≤ x) (h1 : x < 1) (hn : 1 ≤ n) :
    randIndex x n < n := by
  unfold randIndex
  have hn0 : (0 : ℚ) < (n : ℚ) := by exact_mod_cast hn
  have h2 : x * (n : ℚ) < (n : ℚ) := by
    calc x * (n : ℚ) < 1 * (n : ℚ) := mul_lt_mul_of_pos_right h1 hn0
    _ = (n : ℚ) := one_mul _
  have h4 : ⌊x * (n : ℚ)⌋ < (n : ℤ) := Int.floor_lt.mpr (by exact_mod_cast h2)
  have h5 : 0 ≤ ⌊x * (n : ℚ)⌋ := Int.floor_nonneg.mpr (mul_nonneg h0 (le_of_lt hn0))
  omega

theorem swapLoop_take_perm (u : ℕ → ℚ) (hu : URand u) (rc : ℕ) (hrc : 1 ≤ rc) :
    ∀ (n c : ℕ) (l : List ℕ), rc ≤ l.length →
      ((swapLoop u rc c l n).take rc).Perm (l.take rc)
  | 0, c, l, h => by simp [swapLoop]
  | n + 1, c, l, h => by
    have hi := randIndex_lt (u c) rc (hu c).1 (hu c).2 hrc
    have hj := randIndex_lt (u (c + 1)) rc (hu (c + 1)).1 (hu (c + 1)).2 hrc
    have hlen2 :
        rc ≤ (listSwap l (randIndex (u c) rc) (randIndex (u (c + 1)) rc)).length := by
      rwa [listSwap_length]
    have hlen3 : (l.take rc).length = rc := by
      simp only [List.length_take]
      omega
    have step := swapLoop_take_perm u hu rc hrc n (c + 2) _ hlen2
    have hperm2 :
        ((listSwap l (randIndex (u c) rc) (randIndex (u (c + 1)) rc)).take rc).Perm
          (l.take rc) := by
      rw [listSwap_take l rc _ _ hi hj h]
      exact set_set_swap_perm (l.take rc) _ _ (by omega) (by omega)
    exact step.trans hperm2

/-- C7.  From any state, the swap mutation leaves the multiset of rule-table values over
the first ruleCount indices unchanged: the mutated prefix is a permutation of the
original prefix.  URand says every Math.random draw lies in [0, 1); the length hypothesis
says the rule array has its physical capacity (the source array always has length
MAX_N_RULES ≥ ruleCount). -/
theorem mutateSwap_multiset (s : CAState) (u : ℕ → ℚ) (c : ℕ) (hu : URand u)
    (hlen : getCurrentRuleCount s ≤ s.rules.length) :
    ((mutateRuleset .swap s u c).rules.take (getCurrentRuleCount s)).Perm
      (s.rules.take (getCurrentRuleCount s)) := by
  have hrc := getCurrentRuleCount_pos s
  simp only [mutateRuleset, getCurrentRuleCount_push, push_rules]
  rw [if_neg (by omega)]
  exact swapLoop_take_perm u hu _ hrc _ c s.rules hlen

theorem countCellsInRing_1_1 : countCellsInRing 1 1 = 4 := by decide

theorem sampleState_total : totalMaxSumAbs sampleState = 6 := by
  have hc : cellsInRing sampleState 0 = 4 := by
    have h1 : ringInner sampleState.neighborRange sampleState.nRings 0 = 1 := by
      norm_num [ringInner, sampleState]
    have h2 : ringOuter sampleState.neighborRange sampleState.nRings 0 = 1 := by
      norm_num [ringOuter, ringInner, sampleState]
    rw [cellsInRing, h1, h2, countCellsInRing_1_1]
  have hw : ringWeight sampleState.nRings 0 = 1 := by norm_num [ringWeight, sampleState]
  have hm : maxWeightOf sampleState = 3 / 2 := by
    simp only [maxWeightOf, jsListMax, sampleState, MAX_WEIGHT, List.take, List.headD,
      List.foldl_cons, List.foldl_nil]
    norm_num [max_def]
  rw [totalMaxSumAbs]
  rw [show sampleState.nRings = 1 from rfl, Finset.sum_range_one]
  rw [show ringWeight 1 0 = 1 from by norm_num [ringWeight]]
  rw [hc, hm]
  norm_num

theorem sampleState_rc : getCurrentRuleCount sampleState = 7 := by
  rw [getCurrentRuleCount, nRulesNeeded, sampleState_total]
  rw [show sampleState.minNeighborWeight = 0 from rfl, MAX_N_RULES_eq]
  have h : (⌊(6 : ℚ)⌋ : ℤ) = 6 := by norm_num
  rw [h]
  omega

/-- Witness for mutateSwap_multiset at sampleState with the constant draw stream 1/2. -/
theorem mutateSwap_multiset_witness :
    ((mutateRuleset .swap sampleState (fun _ => 1 / 2) 0).rules.take
        (getCurrentRuleCount sampleState)).Perm
      (sampleState.rules.take (getCurrentRuleCount sampleState)) :=
  mutateSwap_multiset sampleState (fun _ => 1 / 2) 0
    (fun _ => by norm_num)
    (by rw [sampleState_rc]; norm_num [sampleState])

/-! ZeroBeyond preservation lemmas. -/

theorem zeroBeyond_set (l : List ℕ) (rc i v : ℕ) (hi : i < rc) (hZ : ZeroBeyond l rc) :
    ZeroBeyond (l.set i v) rc := by
  intro j hj
  rw [getD_set_ne l i j v (by omega)]
  exact hZ j hj

theorem zeroBeyond_listSwap (l : List ℕ) (rc i j : ℕ) (hi : i < rc) (hj : j < rc)
    (hZ : ZeroBeyond l rc) : ZeroBeyond (listSwap l i j) rc := by
  unfold listSwap
  exact zeroBeyond_set _ rc j _ hj (zeroBeyond_set _ rc i _ hi hZ)

theorem swapLoop_zeroBeyond (u : ℕ → ℚ) (hu : URand u) (rc : ℕ) (hrc : 1 ≤ rc) :
    ∀ (n c : ℕ) (l : List ℕ), ZeroBeyond l rc → ZeroBeyond (swapLoop u rc c l n) rc
  | 0, _, _, hZ => hZ
  | n + 1, c, l, hZ =>
    swapLoop_zeroBeyond u hu rc hrc n (c + 2) _
      (zeroBeyond_listSwap l rc _ _ (randIndex_lt (u c) rc (hu c).1 (hu c).2 hrc)
        (randIndex_lt (u (c + 1)) rc (hu (c + 1)).1 (hu (c + 1)).2 hrc) hZ)

theorem pointLoop_zeroBeyond (ns : ℕ) (ci : ℚ) (u : ℕ → ℚ) (hu : URand u) (rc : ℕ)
    (hrc : 1 ≤ rc) : ∀ (n c : ℕ) (l : List ℕ), ZeroBeyond l rc →
      ZeroBeyond (pointLoop ns ci u rc c l n) rc
  | 0, _, _, hZ => hZ
  | n + 1, c, l, hZ =>
    pointLoop_zeroBeyond ns ci u hu rc hrc n _ _
      (zeroBeyond_set _ rc _ _ (randIndex_lt (u c) rc (hu c).1 (hu c).2 hrc) hZ)

theorem getD_drop_zero (l : List ℕ) (n m : ℕ) : (l.drop n).getD m 0 = l.getD (n + m) 0 := by
  by_cases h : n + m < l.length
  · rw [List.getD_eq_getElem _ _ (by simp only [List.length_drop]; omega),
      List.getD_eq_getElem _ _ h, List.getElem_drop]
  · rw [List.getD_eq_default _ _ (by simp only [List.length_drop]; omega),
      List.getD_eq_default _ _ (by omega)]

theorem genRulesGo_length (ns : ℕ) (ci : ℚ) (u : ℕ → ℚ) :
    ∀ (fuel i c : ℕ), (genRulesGo ns ci u i c fuel).1.length = fuel
  | 0, _, _ => rfl
  | fuel + 1, i, c => by
    unfold genRulesGo
    split
    · simp [genRulesGo_length ns ci u fuel]
    · simp [genRulesGo_length ns ci u fuel]

theorem shuffleGo_length (u : ℕ → ℚ) : ∀ (n c : ℕ) (l : List ℕ),
    (shuffleGo u c l n).length = l.length
  | 0, _, _ => rfl
  | n + 1, c, l => by
    rw [show shuffleGo u c l (n + 1) =
      shuffleGo u (c + 1) (listSwap l (n + 1) (randIndex (u c) (n + 2))) n from rfl]
    rw [shuffleGo_length u n (c + 1) _, listSwap_length]

theorem shuffleArray_length (u : ℕ → ℚ) (c : ℕ) (l : List ℕ) :
    (shuffleArray u c l).length = l.length := by
  unfold shuffleArray
  split
  · rfl
  · exact shuffleGo_length u _ c l

theorem generate_zeroBeyond (s : CAState) (u : ℕ → ℚ) (c : ℕ)
    (hZ : ZeroBeyond s.rules (getCurrentRuleCount s)) :
    ZeroBeyond (generateNewRuleset s u c).rules (getCurrentRuleCount s) := by
  have hrc := getCurrentRuleCount_pos s
  simp only [generateNewRuleset]
  rw [if_neg (by omega)]
  intro i hi
  have hlen : (shuffleArray u (genRulesGo s.nStates s.cellInertia u 0 c
      (getCurrentRuleCount s)).2 (genRulesGo s.nStates s.cellInertia u 0 c
      (getCurrentRuleCount s)).1).length = getCurrentRuleCount s := by
    rw [shuffleArray_length, genRulesGo_length]
  change (writeRulesAt0 s.rules _).getD i 0 = 0
  unfold writeRulesAt0
  rw [List.getD_append_right _ _ _ _ (by omega), hlen, getD_drop_zero]
  exact hZ _ (by omega)

theorem restore_zeroBeyond (s : CAState) (e : HistoryEntry)
    (h : s.history.getLast? = some e) :
    ZeroBeyond (restorePriorRuleset s).rules e.rules.length := by
  intro i hi
  unfold restorePriorRuleset
  rw [h]
  rw [List.getD_append_right _ _ _ _ hi]
  exact getD_replicate_zero _ _

theorem unpack_zeroBeyond (knownIds : List (ℕ × ℕ × ℕ)) (firstId : ℕ × ℕ × ℕ)
    (buf : List ℕ) (s s1 : CAState) (rc : ℕ)
    (h : unpackState knownIds firstId buf s = some (s1, rc)) :
    ZeroBeyond s1.rules (min rc MAX_N_RULES) := by
  intro i hi
  simp only [unpackState] at h
  split_ifs at h with h1 h2 h3 h4 <;>
    (simp only [Option.some.injEq, Prod.mk.injEq] at h
     obtain ⟨hs, hrc⟩ := h
     subst hs
     rw [← hrc] at hi
     rw [List.getD_append_right _ _ _ _ (by simp only [List.length_take]; omega)]
     exact getD_replicate_zero _ _)

/-- C5, amended.  Swap and point mutation write only indices < ruleCount and so preserve
the zero-beyond-ruleCount invariant; undo restore and state decode re-establish it (they
zero the whole array before writing the snapshot or the decoded entries); full
regeneration overwrites only the first ruleCount entries without clearing the remainder,
so it preserves the invariant only when the invariant already holds for the current
ruleCount — after ruleCount has decreased, stale nonzero entries survive regeneration
(see the counterexample). -/
theorem ruleTable_zeroBeyond_amended :
    (∀ s u c, URand u → ZeroBeyond s.rules (getCurrentRuleCount s) →
      ZeroBeyond (mutateRuleset .swap s u c).rules (getCurrentRuleCount s)) ∧
    (∀ s u c, URand u → ZeroBeyond s.rules (getCurrentRuleCount s) →
      ZeroBeyond (mutateRuleset .point s u c).rules (getCurrentRuleCount s)) ∧
    (∀ s e, s.history.getLast? = some e →
      ZeroBeyond (restorePriorRuleset s).rules e.rules.length) ∧
    (∀ knownIds firstId buf s s1 rc, unpackState knownIds firstId buf s = some (s1, rc) →
      ZeroBeyond s1.rules (min rc MAX_N_RULES)) ∧
    (∀ s u c, ZeroBeyond s.rules (getCurrentRuleCount s) →
      ZeroBeyond (generateNewRuleset s u c).rules (getCurrentRuleCount s)) := by
  refine ⟨?_, ?_, restore_zeroBeyond, unpack_zeroBeyond, generate_zeroBeyond⟩
  · intro s u c hu hZ
    have hrc := getCurrentRuleCount_pos s
    simp only [mutateRuleset, getCurrentRuleCount_push, push_rules]
    rw [if_neg (by omega)]
    exact swapLoop_zeroBeyond u hu _ hrc _ c s.rules hZ
  · intro s u c hu hZ
    have hrc := getCurrentRuleCount_pos s
    simp only [mutateRuleset, getCurrentRuleCount_push, push_rules, push_nStates,
      push_cellInertia]
    rw [if_neg (by omega)]
    exact pointLoop_zeroBeyond s.nStates s.cellInertia u hu _ hrc _ c s.rules hZ

/-- Witness for ruleTable_zeroBeyond_amended: the swap conjunct applied at sampleState. -/
theorem ruleTable_zeroBeyond_amended_witness :
    ZeroBeyond (mutateRuleset .swap sampleState (fun _ => 1 / 2) 0).rules
      (getCurrentRuleCount sampleState) :=
  ruleTable_zeroBeyond_amended.1 sampleState (fun _ => 1 / 2) 0 (fun _ => by norm_num)
    (by
      rw [sampleState_rc]
      intro i hi
      exact List.getD_eq_default _ _ (by simp [sampleState]; omega))

/-- A reachable configuration in which the derived rule count has decreased to 4 while
the rule table still holds the 7 nonzero entries written when it was generated (reached
by generating at the alternating distribution, then cycling the weight distribution so
that the maximal weight drops from 3/2 to 3/4). -/
def C5s : CAState :=
  { nStates := 2
    neighborRange := 1
    nRings := 1
    cellInertia := 4 / 5
    isVonNeumann := false
    nextWeightsIdx := 2
    paletteId := (97, 98, 99)
    minNeighborWeight := 0
    weights := [0, 3 / 4]
    rules := [1, 1, 1, 1, 1, 1, 1]
    history := [] }

/-- The draw stream consisting entirely of zeros (a legal Math.random trace). -/
def zeroStream : ℕ → ℚ := fun _ => 0

theorem C5s_rc : getCurrentRuleCount C5s = 4 := by
  have hc : cellsInRing C5s 0 = 4 := by
    have h1 : ringInner C5s.neighborRange C5s.nRings 0 = 1 := by
      norm_num [ringInner, C5s]
    have h2 : ringOuter C5s.neighborRange C5s.nRings 0 = 1 := by
      norm_num [ringOuter, ringInner, C5s]
    rw [cellsInRing, h1, h2, countCellsInRing_1_1]
  have hm : maxWeightOf C5s = 3 / 4 := by
    simp only [maxWeightOf, jsListMax, C5s, List.take, List.headD, List.foldl_cons,
      List.foldl_nil]
    norm_num [max_def]
  have ht : totalMaxSumAbs C5s = 3 := by
    rw [totalMaxSumAbs]
    rw [show C5s.nRings = 1 from rfl, Finset.sum_range_one]
    rw [show ringWeight 1 0 = 1 from by norm_num [ringWeight]]
    rw [hc, hm]
    norm_num
  rw [getCurrentRuleCount, nRulesNeeded, ht]
  rw [show C5s.minNeighborWeight = 0 from rfl, MAX_N_RULES_eq]
  have h : (⌊(3 : ℚ)⌋ : ℤ) = 3 := by norm_num
  rw [h]
  omega

/-- C5, counterexample.  In the reachable state C5s the current ruleCount is 4 but the
rule table still has entry 1 at index 4; regenerating the ruleset (the operation the
claim asserts preserves the invariant, including after a ruleCount decrease) leaves
rules[4] = 1 ≠ 0 with 4 ≥ ruleCount, because generateNewRuleset only overwrites the
first ruleCount entries and never clears the remainder. -/
theorem generate_stale_counterexample :
    getCurrentRuleCount (generateNewRuleset C5s zeroStream 0) = 4 ∧
    (generateNewRuleset C5s zeroStream 0).rules.getD 4 0 = 1 := by
  have hgen : generateNewRuleset C5s zeroStream 0 =
      { C5s with rules := [2, 0, 0, 1, 1, 1, 1] } := by
    simp only [generateNewRuleset, C5s_rc]
    rw [if_neg (by omega)]
    have hg : genRulesGo C5s.nStates C5s.cellInertia zeroStream 0 0 4 = ([1, 2, 0, 0], 2) := by
      norm_num [genRulesGo, randCell, zeroStream, C5s]
    rw [hg]
    have hs : shuffleArray zeroStream 2 [1, 2, 0, 0] = [2, 0, 0, 1] := by
      norm_num [shuffleArray, shuffleGo, listSwap, randIndex, zeroStream, List.set]
    rw [hs]
    rfl
  rw [hgen]
  constructor
  · have h1 : getCurrentRuleCount { C5s with rules := [2, 0, 0, 1, 1, 1, 1] } =
        getCurrentRuleCount C5s := rfl
    rw [h1, C5s_rc]
  · rfl

/-! History and undo. -/

theorem min_needed_eq_rc (s : CAState) (h : 1 ≤ nRulesNeeded s) :
    (min (nRulesNeeded s) (MAX_N_RULES : ℤ)).toNat = getCurrentRuleCount s := by
  unfold getCurrentRuleCount
  omega

theorem mutate_history (v : MutationVariant) (s : CAState) (u : ℕ → ℚ) (c : ℕ) :
    (mutateRuleset v s u c).history = (pushRulesetToHistory s).history := by
  simp only [mutateRuleset]
  split
  · rfl
  · cases v <;> rfl

theorem mutate_minNeighborWeight (v : MutationVariant) (s : CAState) (u : ℕ → ℚ) (c : ℕ) :
    (mutateRuleset v s u c).minNeighborWeight = s.minNeighborWeight := by
  simp only [mutateRuleset]
  split
  · exact push_minNeighborWeight s
  · cases v <;> exact push_minNeighborWeight s

theorem push_history_getLast (s : CAState) (h : 1 ≤ nRulesNeeded s) :
    (pushRulesetToHistory s).history.getLast? =
      some ⟨s.rules.take (getCurrentRuleCount s), s.minNeighborWeight⟩ := by
  unfold pushRulesetToHistory
  rw [if_neg (by omega)]
  simp only [min_needed_eq_rc s h]
  split
  · rename_i hlen
    cases hh : s.history with
    | nil =>
      rw [hh] at hlen
      simp [MAX_RULESET_HISTORY] at hlen
    | cons a t =>
      simp [List.getLast?_concat]
  · exact List.getLast?_concat _

/-- C6, amended.  Provided the derived (unclamped) rule count nRulesNeeded is at least 1
— which holds whenever minNeighborWeight is consistent with the current weights and
rings, as re-established by recalcMinNeighborWeight on every configuration change, but
can fail in states installed by decoding a crafted buffer — mutateRuleset pushes the
pre-mutation snapshot (the first ruleCount rule entries and minNeighborWeight) before
modifying any rule entry, and an immediately following undo restores minNeighborWeight
and the first ruleCount rule entries exactly (the restore also zeroes any entries beyond
ruleCount). -/
theorem mutate_pushes_then_undo_restores (s : CAState) (v : MutationVariant) (u : ℕ → ℚ)
    (c : ℕ) (h1 : 1 ≤ nRulesNeeded s) (hlen : getCurrentRuleCount s ≤ s.rules.length) :
    (mutateRuleset v s u c).history.getLast? =
      some ⟨s.rules.take (getCurrentRuleCount s), s.minNeighborWeight⟩ ∧
    (restorePriorRuleset (mutateRuleset v s u c)).minNeighborWeight =
      s.minNeighborWeight ∧
    ∀ i < getCurrentRuleCount s,
      (restorePriorRuleset (mutateRuleset v s u c)).rules.getD i 0 = s.rules.getD i 0 := by
  have hLast : (mutateRuleset v s u c).history.getLast? =
      some ⟨s.rules.take (getCurrentRuleCount s), s.minNeighborWeight⟩ := by
    rw [mutate_history]
    exact push_history_getLast s h1
  have hlen2 : (s.rules.take (getCurrentRuleCount s)).length = getCurrentRuleCount s := by
    simp only [List.length_take]
    omega
  refine ⟨hLast, ?_, ?_⟩
  · unfold restorePriorRuleset
    rw [hLast]
  · intro i hi
    unfold restorePriorRuleset
    rw [hLast]
    simp only
    rw [List.getD_append _ _ _ _ (by omega)]
    exact getD_take_lt s.rules _ i hi hlen

/-- Witness for mutate_pushes_then_undo_restores at sampleState. -/
theorem mutate_pushes_then_undo_restores_witness :
    (mutateRuleset .point sampleState (fun _ => 1 / 2) 0).history.getLast? =
      some ⟨sampleState.rules.take (getCurrentRuleCount sampleState),
        sampleState.minNeighborWeight⟩ ∧
    (restorePriorRuleset
        (mutateRuleset .point sampleState (fun _ => 1 / 2) 0)).minNeighborWeight =
      sampleState.minNeighborWeight ∧
    ∀ i < getCurrentRuleCount sampleState,
      (restorePriorRuleset (mutateRuleset .point sampleState (fun _ => 1 / 2) 0)).rules.getD
          i 0 =
        sampleState.rules.getD i 0 :=
  mutate_pushes_then_undo_restores sampleState .point (fun _ => 1 / 2) 0
    (by
      have h : getCurrentRuleCount sampleState = 7 := sampleState_rc
      unfold getCurrentRuleCount at h
      omega)
    (by rw [sampleState_rc]; norm_num [sampleState])

/-- The state reached by decoding a crafted buffer whose stored minNeighborWeight (5) is
inconsistent with its all-zero weights: the derived rule count before clamping is -4. -/
def C6s : CAState :=
  { nStates := 2
    neighborRange := 1
    nRings := 1
    cellInertia := 0
    isVonNeumann := false
    nextWeightsIdx := 0
    paletteId := (97, 98, 99)
    minNeighborWeight := 5
    weights := [0, 0]
    rules := [0]
    history := [] }

def halfStream : ℕ → ℚ := fun _ => 1 / 2

theorem C6s_needed : nRulesNeeded C6s = -4 := by
  have hc : cellsInRing C6s 0 = 4 := by
    have h1 : ringInner C6s.neighborRange C6s.nRings 0 = 1 := by
      norm_num [ringInner, C6s]
    have h2 : ringOuter C6s.neighborRange C6s.nRings 0 = 1 := by
      norm_num [ringOuter, ringInner, C6s]
    rw [cellsInRing, h1, h2, countCellsInRing_1_1]
  have hm : maxWeightOf C6s = 0 := by
    simp only [maxWeightOf, jsListMax, C6s, List.take, List.headD, List.foldl_cons,
      List.foldl_nil]
    norm_num [max_def]
  have ht : totalMaxSumAbs C6s = 0 := by
    rw [totalMaxSumAbs]
    rw [show C6s.nRings = 1 from rfl, Finset.sum_range_one]
    rw [show ringWeight 1 0 = 1 from by norm_num [ringWeight]]
    rw [hc, hm]
    norm_num
  rw [nRulesNeeded, ht]
  rw [show C6s.minNeighborWeight = 5 from rfl]
  norm_num

theorem C6s_rc : getCurrentRuleCount C6s = 1 := by
  rw [getCurrentRuleCount, C6s_needed, MAX_N_RULES_eq]
  omega

/-- C6, counterexample.  From the state C6s, reachable by loading a crafted encoded
buffer, a point mutation modifies rules[0] (from 0 to 1) without pushing any snapshot —
pushRulesetToHistory bails out because its recomputed rule count is -4 < 1 while
mutateRuleset clamps the same quantity up to 1 and mutates anyway — so the immediately
following undo (a no-op on the empty history) does not restore the pre-mutation rule
table. -/
theorem mutate_no_push_counterexample :
    (mutateRuleset .point C6s halfStream 0).history = [] ∧
    (restorePriorRuleset (mutateRuleset .point C6s halfStream 0)).rules.getD 0 0 = 1 ∧
    C6s.rules.getD 0 0 = 0 := by
  have hpush : pushRulesetToHistory C6s = C6s := by
    unfold pushRulesetToHistory
    rw [if_pos (by rw [C6s_needed]; norm_num)]
  have hmut : mutateRuleset .point C6s halfStream 0 = { C6s with rules := [1] } := by
    simp only [mutateRuleset, hpush, C6s_rc]
    rw [if_neg (by omega)]
    have hn : nMutations 1 = 1 := by
      norm_num [nMutations]
    rw [hn]
    have hp : pointLoop C6s.nStates C6s.cellInertia halfStream 1 0 C6s.rules 1 = [1] := by
      norm_num [pointLoop, randCell, randIndex, halfStream, C6s, List.set]
    rw [hp]
  rw [hmut]
  refine ⟨rfl, ?_, rfl⟩
  rfl

/-! Mutation counts. -/

theorem nMutations_eq_div (rc : ℕ) : nMutations rc = max 1 (rc / 10) := by
  unfold nMutations
  have h : ⌊(rc : ℚ) * (1 / 10)⌋ = (rc : ℤ) / 10 := by
    rw [mul_one_div]
    rw [show ((rc : ℚ)) = (((rc : ℤ) : ℚ)) from by push_cast; ring]
    rw [show ((10 : ℚ)) = (((10 : ℕ) : ℚ)) from by norm_num]
    exact Rat.floor_intCast_div_natCast (rc : ℤ) 10
  rw [h]
  omega

/-- C8, amended.  Both mutation variants run their loop exactly
max(1, Math.floor(ruleCount * 0.1)) = max(1, ⌊ruleCount / 10⌋) times (the source floors;
it does not round): the result of mutateRuleset is the corresponding loop iterated that
many times on the unchanged pre-mutation rule table. -/
theorem mutation_count_amended (s : CAState) (u : ℕ → ℚ) (c : ℕ) :
    (mutateRuleset .swap s u c).rules =
      swapLoop u (getCurrentRuleCount s) c s.rules (max 1 (getCurrentRuleCount s / 10)) ∧
    (mutateRuleset .point s u c).rules =
      pointLoop s.nStates s.cellInertia u (getCurrentRuleCount s) c s.rules
        (max 1 (getCurrentRuleCount s / 10)) := by
  have hrc := getCurrentRuleCount_pos s
  constructor <;>
    (simp only [mutateRuleset, getCurrentRuleCount_push, push_rules, push_nStates,
       push_cellInertia]
     rw [if_neg (by omega), nMutations_eq_div])

/-- C8, counterexample.  At ruleCount = 15 the source performs max(1, ⌊1.5⌋) = 1
mutation step, while the count claimed by the spec, max(1, Math.round(1.5)) (jsRound is
Math.round), is 2. -/
theorem nMutations_round_counterexample :
    nMutations 15 = 1 ∧ max 1 (jsRound ((15 : ℚ) * (1 / 10))).toNat = 2 := by
  constructor
  · rw [nMutations_eq_div]
    decide
  · norm_num [jsRound]
    rfl

/-- C3.  unpackState fails — returning the failure value, so that the caller keeps every
piece of its previous in-memory state — whenever the buffer is shorter than 13 bytes, or
its version byte differs from STATE_VERSION, or its length is less than 13 plus the
declared ruleCount plus the declared stateCount; the source validates all of this before
assigning anything. -/
theorem unpackState_invalid_rejected (knownIds : List (ℕ × ℕ × ℕ)) (firstId : ℕ × ℕ × ℕ)
    (buf : List ℕ) (s : CAState)
    (h : buf.length < 13 ∨ buf.getD 0 0 ≠ STATE_VERSION ∨
      buf.length < 13 + (buf.getD 11 0 + 256 * buf.getD 12 0) + buf.getD 1 0) :
    unpackState knownIds firstId buf s = none ∧
    applyUnpack knownIds firstId buf s = s := by
  have hnone : unpackState knownIds firstId buf s = none := by
    simp only [unpackState]
    split_ifs with h1 h2 h3
    · rfl
    · rfl
    · rfl
    · rcases h with h | h | h
      · exact absurd h h1
      · exact absurd h h2
      · exact absurd h h3
  exact ⟨hnone, by rw [applyUnpack, hnone]⟩

/-- Witness for unpackState_invalid_rejected on the empty buffer. -/
theorem unpackState_invalid_rejected_witness :
    unpackState [] (97, 97, 97) [] sampleState = none ∧
    applyUnpack [] (97, 97, 97) [] sampleState = sampleState :=
  unpackState_invalid_rejected [] (97, 97, 97) [] sampleState (Or.inl (by simp))

/-! URL-safe base64 variant (toBase64url / fromBase64url in src/util.js).  Bytes are
naturals < 256 and six-bit values naturals < 64; for such values the source's bitwise
shifts and ors over disjoint bit ranges equal the divisions, remainders and additions
used here. -/

def B64_CHARS : List Char :=
  "ABCDEFGHIJKLMNOPQRSTUVWXYZabcdefghijklmnopqrstuvwxyz0123456789-_".toList

def b64Char (n : ℕ) : Char := B64_CHARS.getD n 'A'

/-- B64_LOOKUP: the character code of an alphabet character maps to its index; every
other code maps to 0 (the lookup table is zero-initialized). -/
def b64Lookup (c : Char) : ℕ := if c ∈ B64_CHARS then B64_CHARS.indexOf c else 0

/-- toBase64url (src/util.js).  len is bytes.length and i the source's loop counter.
The source only increments i when a byte is actually read (the b1 and b2 reads are
guarded ternaries), so i never exceeds len; the two break conditions (i > len + 1 and
i > len), reproduced here exactly, can therefore never fire, and every chunk emits four
characters with b1 and b2 read as 0 past the end. -/
def toBase64urlGo (len : ℕ) : ℕ → List ℕ → List Char
  | _, [] => []
  | i, [b0] =>
    let i1 := i + 1
    let c01 := [b64Char (b0 / 4), b64Char (b0 % 4 * 16 + 0 / 16)]
    if len + 1 < i1 then c01
    else if len < i1 then c01 ++ [b64Char (0 % 16 * 4 + 0 / 64)]
    else c01 ++ [b64Char (0 % 16 * 4 + 0 / 64), b64Char (0 % 64)]
  | i, [b0, b1] =>
    let i1 := i + 2
    let c01 := [b64Char (b0 / 4), b64Char (b0 % 4 * 16 + b1 / 16)]
    if len + 1 < i1 then c01
    else if len < i1 then c01 ++ [b64Char (b1 % 16 * 4 + 0 / 64)]
    else c01 ++ [b64Char (b1 % 16 * 4 + 0 / 64), b64Char (0 % 64)]
  | i, b0 :: b1 :: b2 :: rest =>
    let i1 := i + 3
    let c01 := [b64Char (b0 / 4), b64Char (b0 % 4 * 16 + b1 / 16)]
    if len + 1 < i1 then c01
    else if len < i1 then c01 ++ [b64Char (b1 % 16 * 4 + b2 / 64)]
    else c01 ++ [b64Char (b1 % 16 * 4 + b2 / 64), b64Char (b2 % 64)] ++
      toBase64urlGo len i1 rest

def toBase64url (bytes : List ℕ) : List Char := toBase64urlGo bytes.length 0 bytes

/-- One four-character group of fromBase64url: the first output byte is written
unconditionally (an out-of-range typed-array store is dropped, hence the guard) and the
second and third only while j < outLen, with j advanced accordingly. -/
def b64Group (outLen j c0 c1 c2 c3 : ℕ) : List ℕ × ℕ :=
  let o1 : List ℕ := if j < outLen then [c0 * 4 + c1 / 16] else []
  let j1 := j + 1
  let o2 : List ℕ := if j1 < outLen then [c1 % 16 * 16 + c2 / 4] else []
  let j2 := if j1 < outLen then j1 + 1 else j1
  let o3 : List ℕ := if j2 < outLen then [c2 % 4 * 64 + c3] else []
  let j3 := if j2 < outLen then j2 + 1 else j2
  (o1 ++ o2 ++ o3, j3)

/-- fromBase64url (src/util.js) body: consume four characters per iteration; the c2 and
c3 lookups are length-guarded (reading 0 past the end), and a c1 read past the end also
yields 0 (charCodeAt returns NaN there, which indexes the lookup table as undefined and
is coerced to 0 by the bitwise operations). -/
def fromBase64urlGo (outLen : ℕ) : ℕ → List Char → List ℕ
  | _, [] => []
  | j, [ch0] => (b64Group outLen j (b64Lookup ch0) 0 0 0).1
  | j, [ch0, ch1] => (b64Group outLen j (b64Lookup ch0) (b64Lookup ch1) 0 0).1
  | j, [ch0, ch1, ch2] =>
    (b64Group outLen j (b64Lookup ch0) (b64Lookup ch1) (b64Lookup ch2) 0).1
  | j, ch0 :: ch1 :: ch2 :: ch3 :: rest =>
    let g := b64Group outLen j (b64Lookup ch0) (b64Lookup ch1) (b64Lookup ch2)
      (b64Lookup ch3)
    g.1 ++ fromBase64urlGo outLen g.2 rest

/-- fromBase64url: outLen = (len * 3) >> 2. -/
def fromBase64url (str : List Char) : List ℕ :=
  fromBase64urlGo (str.length * 3 / 4) 0 str

/-- C4.  The encoder's break conditions are dead (i is only incremented when a byte is
read, so i > len never holds), so toBase64url zero-pads every trailing chunk to a full
four-character group — contradicting both the claim and the source's own comment that
the encoding uses six bits per character with no padding.  Decoding the encoding of the
one-byte array [0] yields the three-byte array [0, 0, 0], not [0]: the round trip is not
the identity for inputs whose length is not a multiple of 3. -/
theorem base64url_roundtrip_fails :
    toBase64url [0] = ['A', 'A', 'A', 'A'] ∧
    fromBase64url (toBase64url [0]) = [0, 0, 0] ∧
    fromBase64url (toBase64url [0]) ≠ [0] := by
  refine ⟨by decide, by decide, by decide⟩

/-! Codec round-trip lemmas. -/

theorem int16_roundtrip (z : ℤ) (h1 : -32768 ≤ z) (h2 : z ≤ 32767) :
    int16OfBytes ((z % 65536).toNat % 256) ((z % 65536).toNat / 256 % 256) = z := by
  unfold int16OfBytes
  split_ifs <;> omega

theorem getD_map_range (f : ℕ → ℕ) (n i : ℕ) (h : i < n) :
    ((List.range n).map f).getD i 0 = f i := by
  rw [List.getD_eq_getElem _ _ (by simpa using h)]
  simp

theorem getD_map_range_rat (f : ℕ → ℚ) (n i : ℕ) (h : i < n) :
    ((List.range n).map f).getD i 0 = f i := by
  rw [List.getD_eq_getElem _ _ (by simpa using h)]
  simp

/-- Quantization error bound: an 8-bit fixed-point weight is restored to within
MAX_WEIGHT/510 (= 1/340) of its original value. -/
theorem quantizeWeight_roundtrip (w : ℚ) (h0 : 0 ≤ w) (h1 : w ≤ MAX_WEIGHT) :
    |(quantizeWeight w : ℚ) / WEIGHT_SCALE - w| ≤ MAX_WEIGHT / 510 := by
  have hws : WEIGHT_SCALE = 170 := by norm_num [WEIGHT_SCALE, MAX_WEIGHT]
  have hmw : w ≤ 3 / 2 := by rwa [MAX_WEIGHT] at h1
  have hx255 : w * 170 ≤ 255 := by nlinarith
  have hf0 : 0 ≤ ⌊w * 170 + 1 / 2⌋ := Int.floor_nonneg.mpr (by linarith)
  have hf255 : ⌊w * 170 + 1 / 2⌋ ≤ 255 := by
    have hle : (⌊w * 170 + 1 / 2⌋ : ℚ) ≤ w * 170 + 1 / 2 := Int.floor_le _
    have hz : (⌊w * 170 + 1 / 2⌋ : ℚ) < 256 := by linarith
    have hz2 : ⌊w * 170 + 1 / 2⌋ < (256 : ℤ) := by exact_mod_cast hz
    omega
  have hq : quantizeWeight w = (⌊w * 170 + 1 / 2⌋).toNat := by
    rw [quantizeWeight, jsRound, hws, toByte]
    omega
  have hcast : ((quantizeWeight w : ℕ) : ℚ) = ((⌊w * 170 + 1 / 2⌋ : ℤ) : ℚ) := by
    rw [hq]
    have hz3 : ((⌊w * 170 + 1 / 2⌋).toNat : ℤ) = ⌊w * 170 + 1 / 2⌋ :=
      Int.toNat_of_nonneg hf0
    exact_mod_cast congrArg (fun z : ℤ => (z : ℚ)) hz3
  rw [hws, hcast]
  have hle : (⌊w * 170 + 1 / 2⌋ : ℚ) ≤ w * 170 + 1 / 2 := Int.floor_le _
  have hgt : w * 170 - 1 / 2 < (⌊w * 170 + 1 / 2⌋ : ℚ) := by
    have := Int.sub_one_lt_floor (w * 170 + 1 / 2)
    linarith
  rw [abs_le, MAX_WEIGHT]
  constructor <;> [linarith; linarith]

/-- C2.  For every valid aggregate — config scalars within their documented ranges,
palette id a known id with three byte-sized components, minNeighborWeight in int16 range,
rule entries byte-sized and the first stateCount weights in [0, MAX_WEIGHT] — unpacking
the buffer produced by packState succeeds and reproduces stateCount, neighborRange,
ringCount, vonNeumann, weightDistributionSelector, paletteId, minNeighborWeight,
ruleCount and every (first-ruleCount) rule-table entry exactly, and restores each of the
first stateCount weights to within MAX_WEIGHT/510 of its original value. -/
theorem packState_unpackState_roundtrip (knownIds : List (ℕ × ℕ × ℕ))
    (firstId : ℕ × ℕ × ℕ) (s : CAState)
    (hns1 : 2 ≤ s.nStates) (hns2 : s.nStates ≤ 32)
    (hnr : s.neighborRange ≤ 12) (hk : s.nRings ≤ 8)
    (hw4 : s.nextWeightsIdx ≤ 3)
    (hpal : s.paletteId ∈ knownIds)
    (hpb1 : s.paletteId.1 ≤ 255) (hpb2 : s.paletteId.2.1 ≤ 255)
    (hpb3 : s.paletteId.2.2 ≤ 255)
    (hmnw1 : -32768 ≤ s.minNeighborWeight) (hmnw2 : s.minNeighborWeight ≤ 32767)
    (hrules : ∀ i < getCurrentRuleCount s, s.rules.getD i 0 ≤ 255)
    (hwts : ∀ i < s.nStates, 0 ≤ s.weights.getD i 0 ∧ s.weights.getD i 0 ≤ MAX_WEIGHT) :
    ∃ buf, packState s = some buf ∧
      ∃ s1, unpackState knownIds firstId buf s = some (s1, getCurrentRuleCount s) ∧
        s1.nStates = s.nStates ∧ s1.neighborRange = s.neighborRange ∧
        s1.nRings = s.nRings ∧ s1.isVonNeumann = s.isVonNeumann ∧
        s1.nextWeightsIdx = s.nextWeightsIdx ∧ s1.paletteId = s.paletteId ∧
        s1.minNeighborWeight = s.minNeighborWeight ∧
        (∀ i < getCurrentRuleCount s, s1.rules.getD i 0 = s.rules.getD i 0) ∧
        (∀ i < s.nStates,
          |s1.weights.getD i 0 - s.weights.getD i 0| ≤ MAX_WEIGHT / 510) := by
  have hrc1 : 1 ≤ getCurrentRuleCount s := getCurrentRuleCount_pos s
  have hrc2 : getCurrentRuleCount s ≤ 7501 := by
    have h := getCurrentRuleCount_le s
    rwa [MAX_N_RULES_eq] at h
  set rc := getCurrentRuleCount s with hrcdef
  set m : ℕ := (s.minNeighborWeight % 65536).toNat with hmdef
  set rulesBytes : List ℕ := (List.range rc).map (fun i => s.rules.getD i 0 % 256)
    with hrb
  set weightBytes : List ℕ := (List.range s.nStates).map
    (fun i => quantizeWeight (s.weights.getD i 0)) with hwb
  set buf : List ℕ := STATE_VERSION :: s.nStates % 256 :: s.neighborRange % 256 ::
    s.nRings % 256 :: toByte (jsRound (s.cellInertia * 255)) ::
    ((cond s.isVonNeumann 1 0) + 2 * s.nextWeightsIdx) % 256 ::
    s.paletteId.1 % 256 :: s.paletteId.2.1 % 256 :: s.paletteId.2.2 % 256 ::
    m % 256 :: m / 256 % 256 :: rc % 256 :: rc / 256 % 256 ::
    (rulesBytes ++ weightBytes) with hbuf
  have hpack : packState s = some buf := by
    rw [packState]
    rw [if_neg (by omega)]
  have hrbl : rulesBytes.length = rc := by
    rw [hrb]
    simp
  have hwbl : weightBytes.length = s.nStates := by
    rw [hwb]
    simp
  have hlen : buf.length = 13 + (rc + s.nStates) := by
    rw [hbuf]
    simp only [List.length_cons, List.length_append, hrbl, hwbl]
    omega
  have hflags : ((cond s.isVonNeumann 1 0) + 2 * s.nextWeightsIdx) % 256 =
      (cond s.isVonNeumann 1 0) + 2 * s.nextWeightsIdx := by
    cases s.isVonNeumann <;> simp <;> omega
  have hg0 : buf.getD 0 0 = 1 := by
    rw [hbuf]
    rfl
  have hg1 : buf.getD 1 0 = s.nStates := by
    rw [hbuf]
    show s.nStates % 256 = s.nStates
    omega
  have hg2 : buf.getD 2 0 = s.neighborRange := by
    rw [hbuf]
    show s.neighborRange % 256 = s.neighborRange
    omega
  have hg3 : buf.getD 3 0 = s.nRings := by
    rw [hbuf]
    show s.nRings % 256 = s.nRings
    omega
  have hg4 : buf.getD 4 0 = toByte (jsRound (s.cellInertia * 255)) := by
    rw [hbuf]
    rfl
  have hg5 : buf.getD 5 0 = (cond s.isVonNeumann 1 0) + 2 * s.nextWeightsIdx := by
    rw [hbuf]
    exact hflags
  have hg6 : buf.getD 6 0 = s.paletteId.1 := by
    rw [hbuf]
    show s.paletteId.1 % 256 = s.paletteId.1
    omega
  have hg7 : buf.getD 7 0 = s.paletteId.2.1 := by
    rw [hbuf]
    show s.paletteId.2.1 % 256 = s.paletteId.2.1
    omega
  have hg8 : buf.getD 8 0 = s.paletteId.2.2 := by
    rw [hbuf]
    show s.paletteId.2.2 % 256 = s.paletteId.2.2
    omega
  have hg9 : buf.getD 9 0 = m % 256 := by
    rw [hbuf]
    rfl
  have hg10 : buf.getD 10 0 = m / 256 % 256 := by
    rw [hbuf]
    rfl
  have hg1112 : buf.getD 11 0 + 256 * buf.getD 12 0 = rc := by
    rw [hbuf]
    show rc % 256 + 256 * (rc / 256 % 256) = rc
    omega
  have hint16 : int16OfBytes (m % 256) (m / 256 % 256) = s.minNeighborWeight := by
    rw [hmdef]
    exact int16_roundtrip s.minNeighborWeight hmnw1 hmnw2
  have heta : (s.paletteId.1, s.paletteId.2.1, s.paletteId.2.2) = s.paletteId := rfl
  have hminrc : min rc MAX_N_RULES = rc := by
    rw [MAX_N_RULES_eq]
    omega
  have hminns : min s.nStates MAX_N_STATES = s.nStates := by
    rw [show MAX_N_STATES = 32 from rfl]
    omega
  have hdrop13 : buf.drop 13 = rulesBytes ++ weightBytes := by
    rw [hbuf]
    rfl
  have htake : (rulesBytes ++ weightBytes).take rc = rulesBytes := by
    rw [← hrbl, List.take_left]
  have hdrop13rc : buf.drop (13 + rc) = weightBytes := by
    rw [← List.drop_drop, hdrop13, ← hrbl, List.drop_left]
  have htakew : weightBytes.take s.nStates = weightBytes := by
    rw [← hwbl, List.take_length]
  have hunpack : unpackState knownIds firstId buf s = some
      ({ s with
          nStates := s.nStates
          neighborRange := s.neighborRange
          nRings := s.nRings
          cellInertia := ((toByte (jsRound (s.cellInertia * 255)) : ℕ) : ℚ) / 255
          isVonNeumann := ((cond s.isVonNeumann 1 0) + 2 * s.nextWeightsIdx) % 2 == 1
          nextWeightsIdx := ((cond s.isVonNeumann 1 0) + 2 * s.nextWeightsIdx) / 2 % 4
          paletteId := s.paletteId
          minNeighborWeight := s.minNeighborWeight
          rules := rulesBytes ++ List.replicate (MAX_N_RULES - rc) 0
          weights := weightBytes.map (fun b : ℕ => (b : ℚ) / WEIGHT_SCALE) ++
            s.weights.drop s.nStates }, rc) := by
    simp only [unpackState]
    rw [if_neg (by rw [hlen]; omega)]
    rw [if_neg (by rw [hg0]; simp [STATE_VERSION])]
    rw [hg1, hg2, hg3, hg4, hg5, hg6, hg7, hg8, hg9, hg10, hg1112, hint16, heta]
    rw [if_neg (by rw [hlen]; omega)]
    rw [if_pos hpal]
    rw [hminrc, hminns, hdrop13, htake, hdrop13rc, htakew]
  refine ⟨buf, hpack, _, hunpack, rfl, rfl, rfl, ?_, ?_, rfl, rfl, ?_, ?_⟩
  · show (((cond s.isVonNeumann 1 0) + 2 * s.nextWeightsIdx) % 2 == 1) = s.isVonNeumann
    cases hb : s.isVonNeumann <;>
      simp [Nat.add_mul_mod_self_left, Nat.mul_mod_right]
  · show ((cond s.isVonNeumann 1 0) + 2 * s.nextWeightsIdx) / 2 % 4 = s.nextWeightsIdx
    cases hb : s.isVonNeumann <;> simp <;> omega
  · intro i hi
    show (rulesBytes ++ List.replicate (MAX_N_RULES - rc) 0).getD i 0 = s.rules.getD i 0
    rw [List.getD_append _ _ _ _ (by rw [hrbl]; omega)]
    rw [hrb, getD_map_range _ _ _ (by omega)]
    have h := hrules i hi
    omega
  · intro i hi
    show |(weightBytes.map (fun b : ℕ => (b : ℚ) / WEIGHT_SCALE) ++
        s.weights.drop s.nStates).getD i 0 - s.weights.getD i 0| ≤ MAX_WEIGHT / 510
    rw [List.getD_append _ _ _ _ (by rw [List.length_map, hwbl]; omega)]
    rw [hwb, List.map_map]
    rw [getD_map_range_rat _ _ _ (by omega)]
    simp only [Function.comp]
    exact quantizeWeight_roundtrip (s.weights.getD i 0) (hwts i hi).1 (hwts i hi).2

/-- Witness for packState_unpackState_roundtrip at sampleState. -/
theorem packState_unpackState_roundtrip_witness :
    ∃ buf, packState sampleState = some buf ∧
      ∃ s1, unpackState [(97, 98, 99)] (97, 98, 99) buf sampleState =
          some (s1, getCurrentRuleCount sampleState) ∧
        s1.nStates = sampleState.nStates ∧
        s1.neighborRange = sampleState.neighborRange ∧
        s1.nRings = sampleState.nRings ∧
        s1.isVonNeumann = sampleState.isVonNeumann ∧
        s1.nextWeightsIdx = sampleState.nextWeightsIdx ∧
        s1.paletteId = sampleState.paletteId ∧
        s1.minNeighborWeight = sampleState.minNeighborWeight ∧
        (∀ i < getCurrentRuleCount sampleState,
          s1.rules.getD i 0 = sampleState.rules.getD i 0) ∧
        (∀ i < sampleState.nStates,
          |s1.weights.getD i 0 - sampleState.weights.getD i 0| ≤ MAX_WEIGHT / 510) :=
  packState_unpackState_roundtrip [(97, 98, 99)] (97, 98, 99) sampleState
    (by norm_num [sampleState]) (by norm_num [sampleState]) (by norm_num [sampleState])
    (by norm_num [sampleState]) (by norm_num [sampleState]) (by simp [sampleState])
    (by norm_num [sampleState]) (by norm_num [sampleState]) (by norm_num [sampleState])
    (by norm_num [sampleState]) (by norm_num [sampleState])
    (by
      intro i hi
      rw [sampleState_rc] at hi
      interval_cases i <;> decide)
    (by
      intro i hi
      rw [show sampleState.nStates = 2 from rfl] at hi
      interval_cases i <;> constructor <;> norm_num [sampleState, MAX_WEIGHT])

end CAF
